import Mathlib

/-!
Verification of the packaging manifest `setup.py` of the hadx repository.

The script defines

    def requirements_from_file(file_name):
      return open(file_name).read().splitlines()

    setup(
      name='hadx',
      version='1.0.0',
      package_dir={"":"lib"},
      packages=find_packages(where="lib"),
      scripts=glob.glob("bin/*.py"),
      install_requires=requirements_from_file('requirements.txt')
    )

We embed the filesystem state as an explicit structure, Python's
`str.splitlines` as a function on character lists, `glob.glob("bin/*.py")`
as a name filter over the `bin` directory listing, and
`setuptools.find_packages(where="lib")` as marker-file based discovery over
a directory tree.  The call to `setup(...)` is embedded as `assemble`,
which produces the configuration record handed to the build tool, or
`none` when reading the requirements file fails.
-/

namespace Hadx

/-- Characters that Python's `str.splitlines` treats as line boundaries:
\n, \r, \v (0x0B), \f (0x0C), FS (0x1C), GS (0x1D), RS (0x1E), NEL (0x85),
LINE SEPARATOR (0x2028) and PARAGRAPH SEPARATOR (0x2029); `\r\n` counts as
a single boundary. -/
def isLB (c : Char) : Bool :=
  c = '\n' || c = '\r' || c = '\x0b' || c = '\x0c' ||
  c = '\x1c' || c = '\x1d' || c = '\x1e' || c = '\x85' ||
  c = '\u2028' || c = '\u2029'

/-- Scanning left to right, replace each two-character boundary `\r\n` by
the single boundary `\n`; every other character is kept.  This mirrors how
Python's `str.splitlines` consumes `\r\n` as one line break. -/
def normCRLF : List Char → List Char
  | [] => []
  | [c] => [c]
  | c :: d :: rest =>
      if c = '\r' && d = '\n' then '\n' :: normCRLF rest
      else c :: normCRLF (d :: rest)

/-- Prepend a character to the first line of a line list (starting a new
first line when there is none). -/
def consHead (c : Char) : List (List Char) → List (List Char)
  | [] => [[c]]
  | l :: ls => (c :: l) :: ls

/-- Split a character list at every single-character line boundary: a
boundary ends the current line, and a trailing boundary does not open a new
(empty) line. -/
def pySplit1 : List Char → List (List Char)
  | [] => []
  | c :: rest =>
      if isLB c then [] :: pySplit1 rest
      else consHead c (pySplit1 rest)

/-- Python's `str.splitlines` on a list of characters: splits at every line
boundary, treats `\r\n` as one boundary, and produces no entry for a
trailing boundary at the end of the string. -/
def pySplitlines (s : List Char) : List (List Char) :=
  pySplit1 (normCRLF s)

/-- Python's `str.splitlines` on strings. -/
def pyStrSplitlines (s : String) : List String :=
  (pySplitlines s.data).map fun l => String.mk l


/-- A directory tree: the names of the plain files in the directory and the
named subdirectories. -/
inductive DirTree where
  | node (fileNames : List String) (subdirs : List (String × DirTree))

/-- The plain files of the directory. -/
def DirTree.fileNames : DirTree → List String
  | .node fs _ => fs

/-- The named subdirectories of the directory. -/
def DirTree.subdirs : DirTree → List (String × DirTree)
  | .node _ ds => ds

/-- The filesystem state visible to `setup.py`: the text files reachable by
path from the working directory (`open` succeeds exactly on the paths that
are mapped to contents), the listing of the `bin` directory as pairs of a
file name and that file's contents, and the directory tree rooted at
`lib`. -/
structure FS where
  files : String → Option String
  binFiles : List (String × String)
  libTree : DirTree

/-- Embedding of `requirements_from_file`: `open(file_name).read()` yields
the file's contents when the file exists (and raises, i.e. `none`,
otherwise), and `.splitlines()` is applied to the contents. -/
def requirements_from_file (fs : FS) (file_name : String) : Option (List String) :=
  (fs.files file_name).map pyStrSplitlines

/-- Whether the string `s` starts with the string `p` (on the character
lists, so it evaluates by kernel reduction). -/
def strStarts (s p : String) : Bool :=
  p.data.isPrefixOf s.data

/-- Whether the string `s` ends with the string `p` (on the character
lists, so it evaluates by kernel reduction). -/
def strEnds (s p : String) : Bool :=
  p.data.isSuffixOf s.data

/-- Whether a file name in the `bin` directory is matched by the glob
pattern `bin/*.py`: the wildcard `*` matches any (possibly empty) run of
characters except that, per Python's `glob` module, a name starting with a
dot is only matched by a pattern that itself starts with a dot, so hidden
files are excluded here. -/
def matchesBinPy (nm : String) : Bool :=
  !strStarts nm "." && strEnds nm ".py"

/-- Embedding of `glob.glob("bin/*.py")`: the names listed in the `bin`
directory that match the pattern, each prefixed with the directory part
`bin/`, in directory-listing order.  Only the names take part; file
contents are never consulted. -/
def globBinPy (fs : FS) : List String :=
  ((fs.binFiles.map Prod.fst).filter matchesBinPy).map fun nm => "bin/" ++ nm

/-- Whether a directory carries the sub-package marker file
`__init__.py`. -/
def hasMarker (t : DirTree) : Bool :=
  t.fileNames.contains "__init__.py"

mutual
/-- Modelled from the spec: the body of `setuptools.find_packages` is not
part of this repository's sources, so package discovery is modelled from
the spec's description — nested directories of the declared root that
contain the sub-package marker file are discovered, and a discovered
directory is reported as the dotted path of directory names leading to it.
`pkgPaths` collects the name paths (relative to the root; sibling order is
listing order) of every nested directory carrying the marker. -/
def pkgPaths : DirTree → List (List String)
  | .node _ subs => pkgPathsList subs
/-- Paths of marker-carrying directories reachable through a subdirectory
list; companion of `pkgPaths`. -/
def pkgPathsList : List (String × DirTree) → List (List String)
  | [] => []
  | (nm, t) :: rest =>
      (if hasMarker t then [[nm]] else [])
        ++ (pkgPaths t).map (fun p => nm :: p)
        ++ pkgPathsList rest
end

/-- The continuation of a dotted path: each further directory name is
preceded by a dot. -/
def dottedTail : List String → String
  | [] => ""
  | nm :: rest => "." ++ nm ++ dottedTail rest

/-- The dotted path of a list of directory names, e.g.
`["a", "b"] ↦ "a.b"`. -/
def dottedName : List String → String
  | [] => ""
  | nm :: rest => nm ++ dottedTail rest

/-- Modelled from the spec: `find_packages(where="lib")` returns the dotted
paths of the nested directories of the `lib` root that contain the
sub-package marker file. -/
def find_packages (t : DirTree) : List String :=
  (pkgPaths t).map dottedName

/-- Look up a named subdirectory in a subdirectory listing. -/
def lookupSub (subs : List (String × DirTree)) (nm : String) : Option DirTree :=
  match subs.find? (fun p => p.1 == nm) with
  | none => none
  | some p => some p.2

/-- The subdirectory of `t` reached by following a path of directory
names, when it exists. -/
def dirAt : DirTree → List String → Option DirTree
  | t, [] => some t
  | t, nm :: rest =>
      match lookupSub t.subdirs nm with
      | none => none
      | some t2 => dirAt t2 rest

/-- A directory name as an importable package component: non-empty and
containing no dot. -/
def goodName (nm : String) : Bool :=
  nm != "" && !(nm.data.contains '.')

/-- Whether a list of directory names has no duplicates (a filesystem
directory cannot hold two entries with the same name). -/
def namesNodup : List String → Bool
  | [] => true
  | nm :: rest => !(rest.contains nm) && namesNodup rest

mutual
/-- Well-formedness of a directory tree as a filesystem tree of importable
package directories: at every level the sibling names are distinct, and
every directory name is non-empty and dot-free. -/
def wfTree : DirTree → Bool
  | .node _ subs => namesNodup (subs.map Prod.fst) && wfSubs subs
/-- Well-formedness of a subdirectory listing; companion of `wfTree`. -/
def wfSubs : List (String × DirTree) → Bool
  | [] => true
  | (nm, t) :: rest => goodName nm && wfTree t && wfSubs rest
end

/-- The configuration record handed to the external build tool by the
`setup(...)` call. -/
structure Config where
  name : String
  version : String
  package_dir : List (String × String)
  packages : List String
  scripts : List String
  install_requires : List String
deriving DecidableEq, Repr

/-- Embedding of the top-level `setup(...)` call (manifest assembly): the
keyword arguments are evaluated against the filesystem state and, if
reading the requirements file succeeds, the configuration record is handed
to the build tool; if `open('requirements.txt')` raises, the exception
propagates and `setup` is never called, so no record is produced
(`none`). -/
def assemble (fs : FS) : Option Config :=
  match requirements_from_file fs "requirements.txt" with
  | none => none
  | some reqs =>
      some { name := "hadx"
             version := "1.0.0"
             package_dir := [("", "lib")]
             packages := find_packages fs.libTree
             scripts := globBinPy fs
             install_requires := reqs }

/-! Concrete filesystem states used to instantiate the theorems below. -/

/-- An empty `lib` directory. -/
def emptyTree : DirTree := .node [] []

/-- A filesystem whose requirements file holds two specifiers separated by
a blank line. -/
def fsBlankLine : FS where
  files := fun nm => if nm = "requirements.txt" then some "foo==1.0\n\nbar>=2\n" else none
  binFiles := []
  libTree := emptyTree

/-- A filesystem whose requirements file holds two specifiers and whose
`bin` directory holds a regular script, a hidden script and a text file. -/
def fsEx : FS where
  files := fun nm => if nm = "requirements.txt" then some "foo==1.0\nbar>=2" else none
  binFiles := [("run.py", "print(1)"), (".hidden.py", "x"), ("notes.txt", "n")]
  libTree := emptyTree

/-- The same directory layout as `fsEx` with different file contents in
`bin` and an additional unrelated file. -/
def fsEx2 : FS where
  files := fun nm =>
    if nm = "requirements.txt" then some "foo==1.0\nbar>=2"
    else if nm = "README.md" then some "docs" else none
  binFiles := [("run.py", "print(2)"), (".hidden.py", "y"), ("notes.txt", "m")]
  libTree := emptyTree

/-- The same filesystem state as `fsEx` except for an additional unrelated
`README.md` file; the inputs consumed by the manifest are unchanged. -/
def fsEx3 : FS where
  files := fun nm =>
    if nm = "requirements.txt" then some "foo==1.0\nbar>=2"
    else if nm = "README.md" then some "docs" else none
  binFiles := [("run.py", "print(1)"), (".hidden.py", "x"), ("notes.txt", "n")]
  libTree := emptyTree

/-- A filesystem whose requirements file holds a `#` comment line and a
backslash-terminated line. -/
def fsComment : FS where
  files := fun nm =>
    if nm = "requirements.txt" then some "# pinned\nfoo \\\nbar>=2" else none
  binFiles := []
  libTree := emptyTree

/-- A filesystem with no requirements file at all. -/
def fsNoReq : FS where
  files := fun _ => none
  binFiles := [("run.py", "print(1)")]
  libTree := emptyTree

/-- A filesystem whose `bin` directory holds no file matching `bin/*.py`. -/
def fsNoScripts : FS where
  files := fun nm => if nm = "requirements.txt" then some "foo==1.0" else none
  binFiles := [("notes.txt", "n"), (".hidden.py", "x")]
  libTree := emptyTree

/-- A concrete `lib` tree: `pkg` and `pkg/sub` carry the marker file,
`datadir` does not. -/
def libEx : DirTree :=
  .node []
    [("pkg", .node ["__init__.py"] [("sub", .node ["__init__.py"] [])]),
     ("datadir", .node ["data.csv"] [])]

/-! Lemmas about the splitlines embedding. -/

theorem pySplit1_noLB (s : List Char) :
    ∀ l ∈ pySplit1 s, ∀ c ∈ l, isLB c = false := by
  induction s with
  | nil =>
      intro l hl
      simp [pySplit1] at hl
  | cons c rest ih =>
      intro l hl d hd
      by_cases hc : isLB c = true
      · rw [pySplit1, if_pos hc] at hl
        rcases List.mem_cons.mp hl with rfl | h
        · exact absurd hd (List.not_mem_nil d)
        · exact ih l h d hd
      · rw [pySplit1, if_neg hc] at hl
        rcases hres : pySplit1 rest with _ | ⟨l2, ls⟩
        · rw [hres] at hl
          simp only [consHead, List.mem_singleton] at hl
          subst hl
          rcases List.mem_singleton.mp hd with rfl
          exact Bool.not_eq_true _ ▸ hc
        · rw [hres] at hl
          simp only [consHead, List.mem_cons] at hl
          rcases hl with rfl | h
          · rcases List.mem_cons.mp hd with rfl | h2
            · exact Bool.not_eq_true _ ▸ hc
            · exact ih l2 (hres ▸ List.mem_cons_self l2 ls) d h2
          · exact ih l (hres ▸ List.mem_cons_of_mem l2 h) d hd

theorem pySplitlines_noLB (s : List Char) :
    ∀ l ∈ pySplitlines s, ∀ c ∈ l, isLB c = false :=
  pySplit1_noLB (normCRLF s)

theorem normCRLF_cons_notCR (c : Char) (xs : List Char) (hc : ¬ c = '\r') :
    normCRLF (c :: xs) = c :: normCRLF xs := by
  cases xs with
  | nil => rfl
  | cons d rest =>
      rw [normCRLF, if_neg]
      simp [hc]

theorem normCRLF_append_nl (a r : List Char) (h : ∀ c ∈ a, isLB c = false) :
    normCRLF (a ++ '\n' :: r) = a ++ '\n' :: normCRLF r := by
  induction a with
  | nil =>
      simp only [List.nil_append]
      exact normCRLF_cons_notCR '\n' r (by decide)
  | cons c a2 ih =>
      have hc : isLB c = false := h c (List.mem_cons_self c a2)
      have hcr : ¬ c = '\r' := by
        intro heq
        rw [heq] at hc
        exact absurd hc (by decide)
      rw [List.cons_append, normCRLF_cons_notCR c (a2 ++ '\n' :: r) hcr,
        ih (fun d hd => h d (List.mem_cons_of_mem c hd))]
      rfl

theorem pySplit1_append_nl (a t : List Char) (h : ∀ c ∈ a, isLB c = false) :
    pySplit1 (a ++ '\n' :: t) = a :: pySplit1 t := by
  induction a with
  | nil =>
      rw [List.nil_append, pySplit1, if_pos (by decide)]
  | cons c a2 ih =>
      have hc : isLB c = false := h c (List.mem_cons_self c a2)
      rw [List.cons_append, pySplit1, if_neg (by simp [hc]),
        ih (fun d hd => h d (List.mem_cons_of_mem c hd))]
      rfl

theorem pySplitlines_append_nl (a r : List Char) (h : ∀ c ∈ a, isLB c = false) :
    pySplitlines (a ++ '\n' :: r) = a :: pySplitlines r := by
  unfold pySplitlines
  rw [normCRLF_append_nl a r h, pySplit1_append_nl a (normCRLF r) h]

theorem normCRLF_noLB (a : List Char) (h : ∀ c ∈ a, isLB c = false) :
    normCRLF a = a := by
  induction a with
  | nil => rfl
  | cons c a2 ih =>
      have hc : isLB c = false := h c (List.mem_cons_self c a2)
      have hcr : ¬ c = '\r' := by
        intro heq
        rw [heq] at hc
        exact absurd hc (by decide)
      rw [normCRLF_cons_notCR c a2 hcr, ih (fun d hd => h d (List.mem_cons_of_mem c hd))]

theorem pySplit1_all_noLB (a : List Char) (h : ∀ c ∈ a, isLB c = false)
    (hne : a ≠ []) : pySplit1 a = [a] := by
  induction a with
  | nil => exact absurd rfl hne
  | cons c a2 ih =>
      have hc : isLB c = false := h c (List.mem_cons_self c a2)
      rw [pySplit1, if_neg (by simp [hc])]
      cases a2 with
      | nil => rfl
      | cons e a3 =>
          rw [ih (fun d hd => h d (List.mem_cons_of_mem c hd)) (List.cons_ne_nil e a3)]
          rfl

theorem pySplitlines_all_noLB (a : List Char) (h : ∀ c ∈ a, isLB c = false)
    (hne : a ≠ []) : pySplitlines a = [a] := by
  unfold pySplitlines
  rw [normCRLF_noLB a h, pySplit1_all_noLB a h hne]

/-! Claim theorems. -/

/-- Claim C1, counterexample: the requirements file
`"foo==1.0\n\nbar>=2\n"` contains 2 non-empty lines, but
`requirements_from_file` returns a 3-entry list (the blank interior line
yields an empty-string entry), so the list does not have exactly N entries
for N the number of non-empty lines. -/
theorem C1_counterexample :
    (pyStrSplitlines "foo==1.0\n\nbar>=2\n").countP (fun l => l != "") = 2 ∧
    requirements_from_file fsBlankLine "requirements.txt"
      = some ["foo==1.0", "", "bar>=2"] ∧
    (["foo==1.0", "", "bar>=2"] : List String).length ≠ 2 := by
  refine ⟨by decide, ?_, by decide⟩
  decide

/-- Claim C1, amended: for every requirements file all of whose lines are
non-empty, `requirements_from_file` returns a list with exactly N entries
for N the number of (non-empty) lines, in file order, each entry verbatim
its line's text — the result is exactly the line decomposition of the
contents, and its length equals the count of non-empty lines. -/
theorem C1_requirements_verbatim (fs : FS) (nm s : String)
    (h : fs.files nm = some s)
    (hne : ∀ l ∈ pyStrSplitlines s, l ≠ "") :
    requirements_from_file fs nm = some (pyStrSplitlines s) ∧
    (pyStrSplitlines s).length = (pyStrSplitlines s).countP (fun l => l != "") := by
  constructor
  · rw [requirements_from_file, h]
    rfl
  · symm
    rw [List.countP_eq_length]
    intro l hl
    simpa using hne l hl

/-- Witness for C1_requirements_verbatim at a concrete two-line file. -/
theorem C1_requirements_verbatim_witness :
    requirements_from_file fsEx "requirements.txt"
      = some (pyStrSplitlines "foo==1.0\nbar>=2") ∧
    (pyStrSplitlines "foo==1.0\nbar>=2").length
      = (pyStrSplitlines "foo==1.0\nbar>=2").countP (fun l => l != "") :=
  C1_requirements_verbatim fsEx "requirements.txt" "foo==1.0\nbar>=2"
    (by decide) (by decide)

/-- Claim C2: when the requirements file is missing, reading it fails, the
failure propagates, and the `setup` call is never reached: manifest
assembly produces no configuration record at all. -/
theorem C2_missing_requirements (fs : FS)
    (h : fs.files "requirements.txt" = none) :
    assemble fs = none := by
  rw [assemble, requirements_from_file, h]
  rfl

/-- Witness for C2_missing_requirements on a filesystem with no
requirements file. -/
theorem C2_missing_requirements_witness : assemble fsNoReq = none :=
  C2_missing_requirements fsNoReq rfl

/-- Claim C4: manifest assembly is a pure function of the filesystem
inputs it consumes — two filesystem states with the same requirements-file
contents, the same `bin` listing and the same `lib` tree yield identical
configuration records, whatever else differs between them. -/
theorem C4_deterministic (fs1 fs2 : FS)
    (hreq : fs1.files "requirements.txt" = fs2.files "requirements.txt")
    (hbin : fs1.binFiles = fs2.binFiles)
    (hlib : fs1.libTree = fs2.libTree) :
    assemble fs1 = assemble fs2 := by
  unfold assemble requirements_from_file globBinPy
  rw [hreq, hbin, hlib]

/-- Witness for C4_deterministic: `fsEx` and `fsEx3` differ in an
unrelated `README.md` file, yet assemble identically. -/
theorem C4_deterministic_witness : assemble fsEx = assemble fsEx3 :=
  C4_deterministic fsEx fsEx3 rfl rfl rfl

/-- Claim C5: when no file in `bin` matches the pattern `bin/*.py`, the
scripts list is empty and manifest assembly still succeeds (a
configuration record is produced). -/
theorem C5_zero_scripts_ok (fs : FS) (s : String)
    (hreq : fs.files "requirements.txt" = some s)
    (hbin : ∀ p ∈ fs.binFiles, matchesBinPy p.1 = false) :
    ∃ cfg, assemble fs = some cfg ∧ cfg.scripts = [] := by
  refine ⟨{ name := "hadx", version := "1.0.0", package_dir := [("", "lib")],
            packages := find_packages fs.libTree, scripts := globBinPy fs,
            install_requires := pyStrSplitlines s }, ?_, ?_⟩
  · rw [assemble, requirements_from_file, hreq]
    rfl
  show globBinPy fs = []
  unfold globBinPy
  rw [List.filter_eq_nil_iff.mpr ?_]
  · rfl
  · intro nm hnm
    rcases List.mem_map.mp hnm with ⟨p, hp, rfl⟩
    simp [hbin p hp]

/-- Witness for C5_zero_scripts_ok on a `bin` directory holding only a
text file and a hidden script. -/
theorem C5_zero_scripts_ok_witness :
    ∃ cfg, assemble fsNoScripts = some cfg ∧ cfg.scripts = [] :=
  C5_zero_scripts_ok fsNoScripts "foo==1.0" (by decide) (by decide)

/-! Lemmas about package discovery, leading to claim C3. -/

theorem pkgPathsList_mem_ne_nil (subs : List (String × DirTree)) :
    ∀ p ∈ pkgPathsList subs, p ≠ [] := by
  induction subs with
  | nil =>
      intro p hp
      simp [pkgPathsList] at hp
  | cons hd tl ih =>
      obtain ⟨nm, t⟩ := hd
      intro p hp
      simp only [pkgPathsList, List.mem_append] at hp
      rcases hp with (h1 | h2) | h3
      · by_cases hm : hasMarker t = true

        · rw [if_pos hm] at h1
          rw [List.mem_singleton.mp h1]
          exact List.cons_ne_nil nm []
        · rw [if_neg hm] at h1
          exact absurd h1 (List.not_mem_nil p)
      · rcases List.mem_map.mp h2 with ⟨q, _, rfl⟩
        exact List.cons_ne_nil nm q
      · exact ih p h3

theorem mem_pkgPathsList (subs : List (String × DirTree)) (p : List String) :
    p ∈ pkgPathsList subs ↔
      ∃ nm t, (nm, t) ∈ subs ∧
        ((p = [nm] ∧ hasMarker t = true) ∨ ∃ q ∈ pkgPaths t, p = nm :: q) := by
  induction subs with
  | nil => simp [pkgPathsList]
  | cons hd tl ih =>
      obtain ⟨nm2, t2⟩ := hd
      simp only [pkgPathsList, List.mem_append, List.mem_map, ih, List.mem_cons]
      constructor
      · rintro ((h1 | ⟨q, hq, rfl⟩) | ⟨nm, t, hmem, hcase⟩)
        · by_cases hm : hasMarker t2 = true
          · rw [if_pos hm] at h1
            exact ⟨nm2, t2, Or.inl rfl, Or.inl ⟨List.mem_singleton.mp h1, hm⟩⟩
          · rw [if_neg hm] at h1
            exact absurd h1 (List.not_mem_nil p)
        · exact ⟨nm2, t2, Or.inl rfl, Or.inr ⟨q, hq, rfl⟩⟩
        · exact ⟨nm, t, Or.inr hmem, hcase⟩
      · rintro ⟨nm, t, hmem | hmem, hcase⟩
        · have hnm : nm = nm2 := congrArg Prod.fst hmem
          have ht : t = t2 := congrArg Prod.snd hmem
          subst hnm
          subst ht
          rcases hcase with ⟨rfl, hm⟩ | ⟨q, hq, rfl⟩
          · exact Or.inl (Or.inl (by rw [if_pos hm]; exact List.mem_singleton.mpr rfl))
          · exact Or.inl (Or.inr ⟨q, hq, rfl⟩)
        · exact Or.inr ⟨nm, t, hmem, hcase⟩

theorem wfSubs_mem (subs : List (String × DirTree)) (nm : String) (t : DirTree)
    (hwf : wfSubs subs = true) (hmem : (nm, t) ∈ subs) :
    goodName nm = true ∧ wfTree t = true := by
  induction subs with
  | nil => exact absurd hmem (List.not_mem_nil (nm, t))
  | cons hd tl ih =>
      obtain ⟨nm2, t2⟩ := hd
      simp only [wfSubs, Bool.and_eq_true] at hwf
      rcases List.mem_cons.mp hmem with heq | hmem2
      · have hnm : nm = nm2 := congrArg Prod.fst heq
        have ht : t = t2 := congrArg Prod.snd heq
        subst hnm
        subst ht
        exact ⟨hwf.1.1, hwf.1.2⟩
      · exact ih hwf.2 hmem2

theorem find?_of_namesNodup (subs : List (String × DirTree)) (nm : String)
    (t : DirTree) (hnd : namesNodup (subs.map Prod.fst) = true)
    (hmem : (nm, t) ∈ subs) :
    subs.find? (fun p => p.1 == nm) = some (nm, t) := by
  induction subs with
  | nil => exact absurd hmem (List.not_mem_nil (nm, t))
  | cons hd tl ih =>
      obtain ⟨nm2, t2⟩ := hd
      simp only [List.map_cons, namesNodup, Bool.and_eq_true] at hnd
      rcases List.mem_cons.mp hmem with heq | hmem2
      · have hnm : nm = nm2 := congrArg Prod.fst heq
        have ht : t = t2 := congrArg Prod.snd heq
        subst hnm
        subst ht
        rw [List.find?_cons_of_pos]
        exact beq_self_eq_true nm
      · have hne : ¬ (nm2 == nm) = true := by
          intro hbeq
          have hq : nm2 = nm := eq_of_beq hbeq
          subst hq
          have hin : nm2 ∈ tl.map Prod.fst := List.mem_map_of_mem Prod.fst hmem2
          have hcont : (tl.map Prod.fst).contains nm2 = true :=
            List.elem_eq_true_of_mem hin
          rw [hcont] at hnd
          exact absurd hnd.1 (by decide)
        rw [List.find?_cons_of_neg tl]
        · exact ih hnd.2 hmem2
        · exact hne

theorem pkgPaths_mem_ne_nil (t : DirTree) : ∀ p ∈ pkgPaths t, p ≠ [] := by
  cases t with
  | node fs subs =>
      simp only [pkgPaths]
      exact pkgPathsList_mem_ne_nil subs

mutual
theorem pkgPaths_good : ∀ (t : DirTree), wfTree t = true →
    ∀ p ∈ pkgPaths t, ∀ nm ∈ p, goodName nm = true
  | .node fs subs => fun hwf p hp nm hnm => by
      simp only [wfTree, Bool.and_eq_true] at hwf
      simp only [pkgPaths] at hp
      exact pkgPathsList_good subs hwf.2 p hp nm hnm
theorem pkgPathsList_good : ∀ (subs : List (String × DirTree)),
    wfSubs subs = true →
    ∀ p ∈ pkgPathsList subs, ∀ nm ∈ p, goodName nm = true
  | [] => fun _ p hp nm _ => by
      simp [pkgPathsList] at hp
  | (nm2, t2) :: rest => fun hwf p hp nm hnm => by
      simp only [wfSubs, Bool.and_eq_true] at hwf
      simp only [pkgPathsList, List.mem_append] at hp
      rcases hp with (h1 | h2) | h3
      · by_cases hm : hasMarker t2 = true
        · rw [if_pos hm] at h1
          rw [List.mem_singleton.mp h1] at hnm
          rw [List.mem_singleton.mp hnm]
          exact hwf.1.1
        · rw [if_neg hm] at h1
          exact absurd h1 (List.not_mem_nil p)
      · rcases List.mem_map.mp h2 with ⟨q, hq, rfl⟩
        rcases List.mem_cons.mp hnm with rfl | hnm2
        · exact hwf.1.1
        · exact pkgPaths_good t2 hwf.1.2 q hq nm hnm2
      · exact pkgPathsList_good rest hwf.2 p h3 nm hnm
end

theorem dirAt_good (p : List String) : ∀ (t sub : DirTree),
    wfTree t = true → dirAt t p = some sub →
    wfTree sub = true ∧ ∀ nm ∈ p, goodName nm = true := by
  induction p with
  | nil =>
      intro t sub hwf hd
      simp only [dirAt] at hd
      obtain rfl := Option.some.inj hd
      exact ⟨hwf, fun nm h => absurd h (List.not_mem_nil nm)⟩
  | cons nm2 rest ih =>
      intro t sub hwf hd
      cases t with
      | node fs subs =>
          simp only [dirAt, DirTree.subdirs] at hd
          rcases hlk : lookupSub subs nm2 with _ | t2
          · rw [hlk] at hd
            cases hd
          · rw [hlk] at hd
            unfold lookupSub at hlk
            rcases hf : subs.find? (fun q => q.1 == nm2) with _ | pr
            · rw [hf] at hlk
              cases hlk
            · rw [hf] at hlk
              have hpr2 : pr.2 = t2 := Option.some.inj hlk
              have hprmem : pr ∈ subs := List.mem_of_find?_eq_some hf
              have hbq := List.find?_some hf
              change (pr.1 == nm2) = true at hbq
              have hpr1 : pr.1 = nm2 := eq_of_beq hbq
              simp only [wfTree, Bool.and_eq_true] at hwf
              have hgw := wfSubs_mem subs pr.1 pr.2 hwf.2
                (by rw [Prod.mk.eta]; exact hprmem)
              rcases ih t2 sub (hpr2 ▸ hgw.2) hd with ⟨hsub, hrest⟩
              refine ⟨hsub, ?_⟩
              intro nm hnm
              rcases List.mem_cons.mp hnm with rfl | h
              · exact hpr1 ▸ hgw.1
              · exact hrest nm h

theorem pkgPaths_iff_dirAt (p : List String) : ∀ (t : DirTree),
    wfTree t = true → p ≠ [] →
    (p ∈ pkgPaths t ↔ ∃ sub, dirAt t p = some sub ∧ hasMarker sub = true) := by
  induction p with
  | nil =>
      intro t _ hne
      exact absurd rfl hne
  | cons nm rest ih =>
      intro t hwf _
      cases t with
      | node fs subs =>
          simp only [wfTree, Bool.and_eq_true] at hwf
          constructor
          · intro hp
            simp only [pkgPaths] at hp
            rcases (mem_pkgPathsList subs (nm :: rest)).mp hp
              with ⟨nm2, t2, hmem, hcase⟩
            rcases hcase with ⟨heq, hm⟩ | ⟨q, hq, heq⟩
            · injection heq with h1 h2
              subst h1
              subst h2
              have hfind := find?_of_namesNodup subs nm t2 hwf.1 hmem
              refine ⟨t2, ?_, hm⟩
              simp only [dirAt, DirTree.subdirs, lookupSub, hfind]
            · injection heq with h1 h2
              subst h1
              subst h2
              have hfind := find?_of_namesNodup subs nm t2 hwf.1 hmem
              have hwt2 : wfTree t2 = true := (wfSubs_mem subs nm t2 hwf.2 hmem).2
              have hne2 : rest ≠ [] := pkgPaths_mem_ne_nil t2 rest hq
              rcases (ih t2 hwt2 hne2).mp hq with ⟨sub, hdir, hm⟩
              refine ⟨sub, ?_, hm⟩
              simp only [dirAt, DirTree.subdirs, lookupSub, hfind]
              exact hdir
          · rintro ⟨sub, hdir, hm⟩
            simp only [dirAt, DirTree.subdirs] at hdir
            rcases hf : lookupSub subs nm with _ | t2
            · rw [hf] at hdir
              cases hdir
            · rw [hf] at hdir
              unfold lookupSub at hf
              rcases hf2 : subs.find? (fun q => q.1 == nm) with _ | pr
              · rw [hf2] at hf
                cases hf
              · rw [hf2] at hf
                have hpr2 : pr.2 = t2 := Option.some.inj hf
                have hprmem : pr ∈ subs := List.mem_of_find?_eq_some hf2
                have hbq := List.find?_some hf2
                change (pr.1 == nm) = true at hbq
                have hpr1 : pr.1 = nm := eq_of_beq hbq
                have hmem : (nm, t2) ∈ subs := by
                  rw [← hpr1, ← hpr2, Prod.mk.eta]
                  exact hprmem
                simp only [pkgPaths]
                apply (mem_pkgPathsList subs (nm :: rest)).mpr
                by_cases hrest : rest = []
                · subst hrest
                  obtain rfl : t2 = sub := Option.some.inj hdir
                  exact ⟨nm, t2, hmem, Or.inl ⟨rfl, hm⟩⟩
                · have hwt2 : wfTree t2 = true :=
                    (wfSubs_mem subs nm t2 hwf.2 hmem).2
                  have hq := (ih t2 hwt2 hrest).mpr ⟨sub, hdir, hm⟩
                  exact ⟨nm, t2, hmem, Or.inr ⟨rest, hq, rfl⟩⟩

theorem goodName_props (nm : String) (h : goodName nm = true) :
    nm.data ≠ [] ∧ '.' ∉ nm.data := by
  unfold goodName at h
  rw [Bool.and_eq_true] at h
  constructor
  · intro hnil
    have hz : nm = "" := String.ext hnil
    subst hz
    simpa using h.1
  · intro hmem
    have hcont : nm.data.contains '.' = true := List.elem_eq_true_of_mem hmem
    rw [hcont] at h
    simpa using h.2

theorem dotfree_append_inj : ∀ (a b x y : List Char),
    '.' ∉ a → '.' ∉ b →
    (x = [] ∨ ∃ x2, x = '.' :: x2) → (y = [] ∨ ∃ y2, y = '.' :: y2) →
    a ++ x = b ++ y → a = b ∧ x = y := by
  intro a
  induction a with
  | nil =>
      intro b x y _ hb hx _ h
      cases b with
      | nil => exact ⟨rfl, h⟩
      | cons c b2 =>
          rw [List.nil_append, List.cons_append] at h
          rcases hx with rfl | ⟨x2, rfl⟩
          · exact absurd h.symm (List.cons_ne_nil c (b2 ++ y))
          · have hc : c = '.' := ((List.cons.injEq '.' x2 c (b2 ++ y)).mp h).1.symm
            subst hc
            exact absurd (List.mem_cons_self '.' b2) hb
  | cons c a2 ih =>
      intro b x y ha hb hx hy h
      cases b with
      | nil =>
          rw [List.nil_append, List.cons_append] at h
          rcases hy with rfl | ⟨y2, rfl⟩
          · exact absurd h (List.cons_ne_nil c (a2 ++ x))
          · have hc : c = '.' := ((List.cons.injEq c (a2 ++ x) '.' y2).mp h).1
            subst hc
            exact absurd (List.mem_cons_self '.' a2) ha
      | cons d b2 =>
          rw [List.cons_append, List.cons_append] at h
          have hcd := (List.cons.injEq c (a2 ++ x) d (b2 ++ y)).mp h
          obtain ⟨rfl, htail⟩ := hcd
          have ha2 : '.' ∉ a2 := fun hm => ha (List.mem_cons_of_mem c hm)
          have hb2 : '.' ∉ b2 := fun hm => hb (List.mem_cons_of_mem c hm)
          obtain ⟨he, hxy⟩ := ih b2 x y ha2 hb2 hx hy htail
          exact ⟨by rw [he], hxy⟩

theorem dottedTail_shape (rest : List String) :
    (dottedTail rest).data = [] ∨
      ∃ x2, (dottedTail rest).data = '.' :: x2 := by
  cases rest with
  | nil => exact Or.inl rfl
  | cons nm rr =>
      right
      refine ⟨nm.data ++ (dottedTail rr).data, ?_⟩
      show (("." ++ nm) ++ dottedTail rr).data = '.' :: (nm.data ++ (dottedTail rr).data)
      rw [String.data_append, String.data_append]
      rfl

theorem dottedTail_inj : ∀ (r1 r2 : List String),
    (∀ nm ∈ r1, goodName nm = true) → (∀ nm ∈ r2, goodName nm = true) →
    dottedTail r1 = dottedTail r2 → r1 = r2 := by
  intro r1
  induction r1 with
  | nil =>
      intro r2 _ hg2 h
      cases r2 with
      | nil => rfl
      | cons nm2 rr2 =>
          exfalso
          have hd := congrArg String.data h
          rw [dottedTail, dottedTail, String.data_append, String.data_append] at hd
          exact (List.cons_ne_nil '.' (nm2.data ++ (dottedTail rr2).data)).symm
            (by simpa using hd)
  | cons nm rr ih =>
      intro r2 hg1 hg2 h
      cases r2 with
      | nil =>
          exfalso
          have hd := congrArg String.data h
          rw [dottedTail, dottedTail, String.data_append, String.data_append] at hd
          exact (List.cons_ne_nil '.' (nm.data ++ (dottedTail rr).data))
            (by simpa using hd)
      | cons nm2 rr2 =>
          have hd := congrArg String.data h
          rw [dottedTail, dottedTail, String.data_append, String.data_append,
            String.data_append, String.data_append] at hd
          have htail : nm.data ++ (dottedTail rr).data
              = nm2.data ++ (dottedTail rr2).data := by
            have hd2 : '.' :: (nm.data ++ (dottedTail rr).data)
                = '.' :: (nm2.data ++ (dottedTail rr2).data) := by simpa using hd
            exact (List.cons.injEq '.' _ '.' _).mp hd2 |>.2
          have hnm := goodName_props nm (hg1 nm (List.mem_cons_self nm rr))
          have hnm2 := goodName_props nm2 (hg2 nm2 (List.mem_cons_self nm2 rr2))
          obtain ⟨he, hxy⟩ := dotfree_append_inj nm.data nm2.data
            (dottedTail rr).data (dottedTail rr2).data hnm.2 hnm2.2
            (dottedTail_shape rr) (dottedTail_shape rr2) htail
          have hnmeq : nm = nm2 := String.ext he
          have hteq : dottedTail rr = dottedTail rr2 := String.ext hxy
          rw [hnmeq, ih rr2 (fun x hx => hg1 x (List.mem_cons_of_mem nm hx))
            (fun x hx => hg2 x (List.mem_cons_of_mem nm2 hx)) hteq]

theorem dottedName_inj (p q : List String)
    (hp : ∀ nm ∈ p, goodName nm = true) (hq : ∀ nm ∈ q, goodName nm = true)
    (h : dottedName p = dottedName q) : p = q := by
  cases p with
  | nil =>
      cases q with
      | nil => rfl
      | cons nm2 rr2 =>
          exfalso
          have hd := congrArg String.data h
          rw [dottedName, dottedName, String.data_append] at hd
          have hnil := (List.append_eq_nil.mp (by simpa using hd.symm)).1
          exact (goodName_props nm2 (hq nm2 (List.mem_cons_self nm2 rr2))).1 hnil
  | cons nm rr =>
      cases q with
      | nil =>
          exfalso
          have hd := congrArg String.data h
          rw [dottedName, dottedName, String.data_append] at hd
          have hnil := (List.append_eq_nil.mp (by simpa using hd)).1
          exact (goodName_props nm (hp nm (List.mem_cons_self nm rr))).1 hnil
      | cons nm2 rr2 =>
          have hd := congrArg String.data h
          rw [dottedName, dottedName, String.data_append, String.data_append] at hd
          have hnm := goodName_props nm (hp nm (List.mem_cons_self nm rr))
          have hnm2 := goodName_props nm2 (hq nm2 (List.mem_cons_self nm2 rr2))
          obtain ⟨he, hxy⟩ := dotfree_append_inj nm.data nm2.data
            (dottedTail rr).data (dottedTail rr2).data hnm.2 hnm2.2
            (dottedTail_shape rr) (dottedTail_shape rr2) hd
          rw [String.ext he,
            dottedTail_inj rr rr2 (fun x hx => hp x (List.mem_cons_of_mem nm hx))
              (fun x hx => hq x (List.mem_cons_of_mem nm2 hx)) (String.ext hxy)]

/-- Claim C3: for a well-formed directory tree under the `lib` root (dot-free
non-empty directory names, distinct siblings), a nested directory appears
as its dotted path in the discovered package list exactly when it carries
the sub-package marker file `__init__.py`: with the marker it appears,
without the marker it does not. -/
theorem C3_find_packages (t : DirTree) (p : List String) (sub : DirTree)
    (hwf : wfTree t = true) (hne : p ≠ []) (hsub : dirAt t p = some sub) :
    (dottedName p ∈ find_packages t ↔ hasMarker sub = true) := by
  constructor
  · intro hmem
    simp only [find_packages] at hmem
    rcases List.mem_map.mp hmem with ⟨q, hq, hdq⟩
    have hqgood : ∀ nm ∈ q, goodName nm = true := pkgPaths_good t hwf q hq
    have hpgood : ∀ nm ∈ p, goodName nm = true := (dirAt_good p t sub hwf hsub).2
    have hqp : q = p := dottedName_inj q p hqgood hpgood hdq
    subst hqp
    rcases (pkgPaths_iff_dirAt q t hwf hne).mp hq with ⟨sub2, hd2, hm2⟩
    rw [hsub] at hd2
    obtain rfl := Option.some.inj hd2
    exact hm2
  · intro hm
    simp only [find_packages]
    exact List.mem_map_of_mem dottedName
      ((pkgPaths_iff_dirAt p t hwf hne).mpr ⟨sub, hsub, hm⟩)


/-- Witness for C3_find_packages: in `libEx` the nested directory
`pkg/sub` carries the marker, so `pkg.sub` is discovered. -/
theorem C3_find_packages_witness :
    dottedName ["pkg", "sub"] ∈ find_packages libEx ↔
      hasMarker (.node ["__init__.py"] []) = true :=
  C3_find_packages libEx ["pkg", "sub"] (.node ["__init__.py"] [])
    (by simp only [libEx, wfTree, wfSubs]; decide)
    (by simp) rfl

/-- Claim C6, counterexample: `.hidden.py` is a file located in `bin` and
carries the `.py` extension, yet `bin/.hidden.py` is not in the scripts
list — membership is not determined by location and extension alone. -/
theorem C6_counterexample :
    (".hidden.py", "x") ∈ fsEx.binFiles ∧
    strEnds ".hidden.py" ".py" = true ∧
    "bin/.hidden.py" ∉ globBinPy fsEx := by
  refine ⟨by decide, by decide, by decide⟩

/-- Claim C6, amended: membership in the scripts list is determined
entirely by the file names in `bin` (location plus name pattern), never by
file contents — two `bin` listings with the same names yield the same
scripts list — and every file in `bin` whose name has the `.py` extension
and does not begin with a dot is a member. -/
theorem C6_scripts_by_name (fs fs2 : FS) (nm c : String)
    (h : fs.binFiles.map Prod.fst = fs2.binFiles.map Prod.fst)
    (hmem : (nm, c) ∈ fs.binFiles)
    (hdot : strStarts nm "." = false)
    (hext : strEnds nm ".py" = true) :
    globBinPy fs = globBinPy fs2 ∧ ("bin/" ++ nm) ∈ globBinPy fs := by
  constructor
  · unfold globBinPy
    rw [h]
  · unfold globBinPy
    apply List.mem_map_of_mem
    apply List.mem_filter.mpr
    refine ⟨List.mem_map_of_mem Prod.fst hmem, ?_⟩
    unfold matchesBinPy
    rw [hdot, hext]
    rfl

/-- Witness for C6_scripts_by_name: `fsEx` and `fsEx2` list the same names
in `bin` with different contents, and `run.py` is a member. -/
theorem C6_scripts_by_name_witness :
    globBinPy fsEx = globBinPy fsEx2 ∧ ("bin/" ++ "run.py") ∈ globBinPy fsEx :=
  C6_scripts_by_name fsEx fsEx2 "run.py" "print(1)" (by decide) (by decide)
    (by decide) (by decide)

/-- Claim C7: the requirements file gets no comment or continuation
handling — the returned list is exactly the line decomposition of the
contents, so a line beginning with `#` or ending with a backslash appears
verbatim as its own entry. -/
theorem C7_no_comment_handling (fs : FS) (nm s l : String)
    (h : fs.files nm = some s) (hl : l ∈ pyStrSplitlines s)
    (hcl : strStarts l "#" = true ∨ strEnds l "\\" = true) :
    requirements_from_file fs nm = some (pyStrSplitlines s) ∧
    l ∈ pyStrSplitlines s := by
  constructor
  · rw [requirements_from_file, h]
    rfl
  · exact hl

/-- Witness for C7_no_comment_handling: a file holding a `#` comment line
and a backslash-continued line keeps both verbatim. -/
theorem C7_no_comment_handling_witness :
    requirements_from_file fsComment "requirements.txt"
      = some (pyStrSplitlines "# pinned\nfoo \\\nbar>=2") ∧
    "# pinned" ∈ pyStrSplitlines "# pinned\nfoo \\\nbar>=2" :=
  C7_no_comment_handling fsComment "requirements.txt"
    "# pinned\nfoo \\\nbar>=2" "# pinned" (by decide) (by decide)
    (Or.inl (by decide))

/-- Claim C8: `requirements_from_file` returns exactly the splitlines
decomposition of the contents; for boundary-free non-empty `a` and `b`, an
interior blank line shows up as an empty-string entry
(`a ++ "\n" ++ "\n" ++ b` decomposes to `[a, "", b]`), while a single
trailing newline adds no entry (`a ++ "\n"` decomposes the same as
`a`). -/
theorem C8_splitlines_decomposition (fs : FS) (nm s a b : String)
    (h : fs.files nm = some s)
    (ha : ∀ c ∈ a.data, isLB c = false) (hane : a ≠ "")
    (hb : ∀ c ∈ b.data, isLB c = false) (hbne : b ≠ "") :
    requirements_from_file fs nm = some (pyStrSplitlines s) ∧
    pyStrSplitlines (a ++ "\n" ++ "\n" ++ b) = [a, "", b] ∧
    pyStrSplitlines (a ++ "\n") = pyStrSplitlines a := by
  have hadata : a.data ≠ [] := fun hnil => hane (String.ext hnil)
  have hbdata : b.data ≠ [] := fun hnil => hbne (String.ext hnil)
  refine ⟨?_, ?_, ?_⟩
  · rw [requirements_from_file, h]
    rfl
  · unfold pyStrSplitlines
    have hdata : (a ++ "\n" ++ "\n" ++ b).data
        = a.data ++ '\n' :: ('\n' :: b.data) := by
      simp [String.data_append]
    have h2 : pySplitlines ('\n' :: b.data) = [] :: pySplitlines b.data :=
      pySplitlines_append_nl [] b.data
        (by intro c hc; exact absurd hc (List.not_mem_nil c))
    rw [hdata, pySplitlines_append_nl a.data _ ha, h2,
      pySplitlines_all_noLB b.data hb hbdata]
    rfl
  · unfold pyStrSplitlines
    have hdata : (a ++ "\n").data = a.data ++ '\n' :: [] := by
      simp [String.data_append]
    rw [hdata, pySplitlines_append_nl a.data [] ha,
      pySplitlines_all_noLB a.data ha hadata]
    rfl

/-- Witness for C8_splitlines_decomposition with `a = "foo"`,
`b = "bar"`. -/
theorem C8_splitlines_decomposition_witness :
    requirements_from_file fsEx "requirements.txt"
      = some (pyStrSplitlines "foo==1.0\nbar>=2") ∧
    pyStrSplitlines ("foo" ++ "\n" ++ "\n" ++ "bar") = ["foo", "", "bar"] ∧
    pyStrSplitlines ("foo" ++ "\n") = pyStrSplitlines "foo" :=
  C8_splitlines_decomposition fsEx "requirements.txt" "foo==1.0\nbar>=2"
    "foo" "bar" (by decide) (by decide) (by decide) (by decide) (by decide)

/-- Claim C9: every file in `bin` whose name begins with a dot (such as
`bin/.hidden.py`) is excluded from the scripts list even though it sits in
`bin` and has the `.py` extension, because the glob wildcard does not
match a leading dot. -/
theorem C9_hidden_excluded (fs : FS) (nm c : String)
    (hmem : (nm, c) ∈ fs.binFiles)
    (hdot : strStarts nm "." = true)
    (hext : strEnds nm ".py" = true) :
    ("bin/" ++ nm) ∉ globBinPy fs := by
  intro hcontra
  rcases List.mem_map.mp hcontra with ⟨nm2, hnm2, heq⟩
  have hdata : nm2.data = nm.data := by
    have h1 : ("bin/" ++ nm2).data = ("bin/" ++ nm).data := congrArg String.data heq
    rw [String.data_append, String.data_append] at h1
    exact List.append_cancel_left h1
  have hnmeq : nm2 = nm := String.ext hdata
  have hmatch := (List.mem_filter.mp hnm2).2
  rw [hnmeq] at hmatch
  unfold matchesBinPy at hmatch
  rw [Bool.and_eq_true] at hmatch
  rw [hdot] at hmatch
  exact absurd hmatch.1 (by decide)

/-- Witness for C9_hidden_excluded at the dot-initial script `.hidden.py`
listed in `fsEx`. -/
theorem C9_hidden_excluded_witness :
    ("bin/" ++ ".hidden.py") ∉ globBinPy fsEx :=
  C9_hidden_excluded fsEx ".hidden.py" "x" (by decide) (by decide) (by decide)

/-- Claim C10: every entry produced by `requirements_from_file` is free of
line-terminator characters — the split strips all line boundaries, so no
entry can span or embed multiple lines. -/
theorem C10_entries_no_terminator (fs : FS) (nm : String)
    (reqs : List String) (r : String) (c : Char)
    (h : requirements_from_file fs nm = some reqs)
    (hr : r ∈ reqs) (hc : c ∈ r.data) :
    isLB c = false := by
  rw [requirements_from_file] at h
  rcases hfile : fs.files nm with _ | s
  · rw [hfile] at h
    exact absurd h (by simp)
  · rw [hfile, Option.map_some'] at h
    have hreqs : pyStrSplitlines s = reqs := Option.some.inj h
    rw [← hreqs] at hr
    rcases List.mem_map.mp hr with ⟨l, hlmem, hmk⟩
    rw [← hmk] at hc
    exact pySplitlines_noLB s.data l hlmem c hc

/-- Witness for C10_entries_no_terminator at a concrete entry and
character. -/
theorem C10_entries_no_terminator_witness : isLB 'f' = false :=
  C10_entries_no_terminator fsEx "requirements.txt"
    ["foo==1.0", "bar>=2"] "foo==1.0" 'f' (by decide) (by decide) (by decide)

end Hadx
